import Mathlib

/-!
Verification development for the Pinterest search-and-scrape repository
(`pinterest_browser_scraper.py`, `run.py`).  URLs and file names are modelled
as lists of characters; Python string operations (`startswith`, `in`,
`replace`, `split`) are embedded as executable functions on `List Char`.
The discovery loop, the canonicalizer, and the batch download scheduler are
embedded as pure functions over explicit page/fetch oracles.
-/

namespace PinScrape

/-- Boolean test that `p` is a leading segment of `s` (Python `s.startswith(p)`). -/
def hasPre : List Char → List Char → Bool
  | [], _ => true
  | _ :: _, [] => false
  | a :: p, b :: s => a == b && hasPre p s

/-- Boolean test that `p` occurs contiguously inside `s` (Python `p in s`). -/
def hasSub (p : List Char) : List Char → Bool
  | [] => hasPre p []
  | c :: s => hasPre p (c :: s) || hasSub p s

/-- Fuel-indexed worker for `pyReplace`; the fuel dominates the length of the
remaining input, so the recursion is structural and kernel-reducible. -/
def replGo (p rep : List Char) : Nat → List Char → List Char
  | 0, s => s
  | _ + 1, [] => []
  | fuel + 1, c :: s =>
    if hasPre p (c :: s) then rep ++ replGo p rep fuel ((c :: s).drop p.length)
    else c :: replGo p rep fuel s

/-- Python `s.replace(p, rep)`: replace every non-overlapping occurrence of
`p` in `s` by `rep`, scanning left to right. -/
def pyReplace (s p rep : List Char) : List Char :=
  replGo p rep s.length s

/-- Size-variant path markers enumerated in `extract_all_image_urls_on_page`
(`patterns = ['/236x/', '/474x/', '/736x/', '/1200x/', '/550x/', '/170x/']`). -/
def patterns : List (List Char) :=
  ["/236x/".toList, "/474x/".toList, "/736x/".toList,
   "/1200x/".toList, "/550x/".toList, "/170x/".toList]

/-- Marker of inline data URLs (`url.startswith('data:')`). -/
def dataMarker : List Char := "data:".toList

/-- Too-small thumbnail marker (`'/60x60/' in url`). -/
def smallMarker : List Char := "/60x60/".toList

/-- Host marker required for acceptance (`'i.pinimg.com' in processed_url`). -/
def pinimgMarker : List Char := "i.pinimg.com".toList

/-- Replacement segment for the largest available variant (`'/originals/'`). -/
def origMarker : List Char := "/originals/".toList

/-- First size-variant marker found in the url is replaced by `/originals/`;
with no marker present the url is left as is (the `for pattern in patterns:
... break` loop of `extract_all_image_urls_on_page`). -/
def applyFirst (url : List Char) : List Char :=
  match patterns.find? (fun p => hasSub p url) with
  | some p => pyReplace url p origMarker
  | none => url

/-- Canonicalizer embedded from the per-url processing in
`extract_all_image_urls_on_page` (lines 347-371): reject data URLs and
`/60x60/` thumbnails, normalize the first size-variant marker to
`/originals/`, and emit only `i.pinimg.com` references. -/
def canonicalize (url : List Char) : Option (List Char) :=
  if hasPre dataMarker url then none
  else if hasSub smallMarker url then none
  else if hasSub pinimgMarker (applyFirst url) then some (applyFirst url)
  else none

theorem hasPre_nil_true (s : List Char) : hasPre [] s = true := by
  cases s <;> rfl

theorem hasPre_trans {t p s : List Char} (h1 : hasPre t p = true)
    (h2 : hasPre p s = true) : hasPre t s = true := by
  induction t generalizing p s with
  | nil => exact hasPre_nil_true s
  | cons a t ih =>
    cases p with
    | nil => simp [hasPre] at h1
    | cons b p =>
      cases s with
      | nil => simp [hasPre] at h2
      | cons c s =>
        simp only [hasPre, Bool.and_eq_true, beq_iff_eq] at h1 h2 ⊢
        exact ⟨h1.1.trans h2.1, ih h1.2 h2.2⟩

theorem hasPre_append_long {t x : List Char} (u : List Char)
    (h : t.length ≤ x.length) : hasPre t (x ++ u) = hasPre t x := by
  induction t generalizing x with
  | nil => cases x <;> simp [hasPre]
  | cons a t ih =>
    cases x with
    | nil => simp at h
    | cons b x =>
      simp only [List.cons_append, hasPre, List.append_eq]
      rw [ih (by simpa using Nat.le_of_succ_le_succ h)]

theorem eq_append_drop_of_hasPre {t s : List Char} (h : hasPre t s = true) :
    s = t ++ s.drop t.length := by
  induction t generalizing s with
  | nil => simp
  | cons a t ih =>
    cases s with
    | nil => simp [hasPre] at h
    | cons b s =>
      simp only [hasPre, Bool.and_eq_true, beq_iff_eq] at h
      simpa [h.1] using congrArg (b :: ·) (ih h.2)

theorem hasPre_split_short {x l u : List Char} (hlen : x.length ≤ l.length)
    (h : hasPre l (x ++ u) = true) :
    hasPre x l = true ∧ hasPre (l.drop x.length) u = true := by
  induction x generalizing l with
  | nil => exact ⟨hasPre_nil_true l, by simpa using h⟩
  | cons b x ih =>
    cases l with
    | nil => simp at hlen
    | cons a l =>
      simp only [List.cons_append, hasPre, Bool.and_eq_true, beq_iff_eq] at h ⊢
      obtain ⟨h1, h2⟩ := h
      obtain ⟨h3, h4⟩ := ih (by simpa using Nat.le_of_succ_le_succ hlen) h2
      exact ⟨⟨h1.symm, h3⟩, by simpa using h4⟩

theorem hasSub_of_hasPre {l s : List Char} (h : hasPre l s = true) :
    hasSub l s = true := by
  cases s with
  | nil => simpa [hasSub] using h
  | cons c s => simp [hasSub, h]

theorem hasSub_append_left {l t : List Char} (a : List Char)
    (h : hasSub l t = true) : hasSub l (a ++ t) = true := by
  induction a with
  | nil => simpa using h
  | cons c a ih => simp [List.cons_append, hasSub, ih]

theorem hasPre_self_append (l u : List Char) : hasPre l (l ++ u) = true := by
  induction l with
  | nil => exact hasPre_nil_true u
  | cons a l ih => simp [hasPre, ih]

theorem hasSub_middle (a l b : List Char) : hasSub l (a ++ l ++ b) = true := by
  rw [List.append_assoc]
  exact hasSub_append_left a (hasSub_of_hasPre (hasPre_self_append l b))

theorem hasSub_append_split {l x u : List Char} (h : hasSub l (x ++ u) = true) :
    (∃ x₂, x₂ <:+ x ∧ hasPre l (x₂ ++ u) = true) ∨ hasSub l u = true := by
  induction x with
  | nil => exact Or.inr (by simpa using h)
  | cons c x ih =>
    simp only [List.cons_append, hasSub, Bool.or_eq_true] at h
    rcases h with h | h
    · exact Or.inl ⟨c :: x, List.suffix_rfl, by simpa using h⟩
    · rcases ih h with ⟨x₂, hsfx, hpre⟩ | h2
      · exact Or.inl ⟨x₂, hsfx.trans (List.suffix_cons c x), hpre⟩
      · exact Or.inr h2

theorem hasSub_of_suffix {l : List Char} {s d : List Char} (hsfx : d <:+ s)
    (h : hasSub l d = true) : hasSub l s = true := by
  obtain ⟨a, rfl⟩ := hsfx
  exact hasSub_append_left a h

/-- Preservation of absent leading segments across `pyReplace`: for any family
`T` of tokens that is closed under nonempty tails, whose members are at most
as long as the replacement text, and whose members can only match the start of
the replacement text if they also match the start of the pattern, replacement
of `p` by `/originals/` cannot create a member of `T` at the front. -/
theorem hasPre_replGo_absent (p : List Char) (T : List (List Char))
    (hne : ∀ t ∈ T, t ≠ [])
    (hlen : ∀ t ∈ T, t.length ≤ origMarker.length)
    (htail : ∀ t ∈ T, t.tail = [] ∨ t.tail ∈ T)
    (hrep : ∀ t ∈ T, hasPre t origMarker = true → hasPre t p = true) :
    ∀ fuel s, s.length ≤ fuel → ∀ t ∈ T, hasPre t s = false →
      hasPre t (replGo p origMarker fuel s) = false := by
  intro fuel
  induction fuel with
  | zero =>
    intro s _ t _ h
    simpa [replGo] using h
  | succ fuel ih =>
    intro s hslen t htm h
    cases s with
    | nil =>
      obtain ⟨a, t', rfl⟩ := List.exists_cons_of_ne_nil (hne t htm)
      simp [replGo, hasPre]
    | cons c s =>
      by_cases hm : hasPre p (c :: s) = true
      · rw [show replGo p origMarker (fuel + 1) (c :: s)
            = origMarker ++ replGo p origMarker fuel ((c :: s).drop p.length) by
          simp [replGo, hm]]
        rw [hasPre_append_long _ (hlen t htm)]
        cases hrt : hasPre t origMarker with
        | false => rfl
        | true =>
          exact absurd (hasPre_trans (hrep t htm hrt) hm) (by simp [h])
      · rw [show replGo p origMarker (fuel + 1) (c :: s)
            = c :: replGo p origMarker fuel s by
          simp [replGo, hm]]
        obtain ⟨a, t', rfl⟩ := List.exists_cons_of_ne_nil (hne t htm)
        simp only [hasPre, Bool.and_eq_false_iff, beq_eq_false_iff_ne] at h ⊢
        rcases h with h | h
        · exact Or.inl h
        · by_cases hac : a = c
          · cases t' with
            | nil => exact absurd (hasPre_nil_true s) (by simp [h])
            | cons b t'' =>
              have ht'm : b :: t'' ∈ T := by
                rcases htail _ htm with h0 | h0
                · exact absurd h0 (by simp)
                · exact h0
              exact Or.inr (ih s (by simpa using Nat.le_of_succ_le_succ hslen)
                _ ht'm h)
          · exact Or.inl hac

/-- Nonempty tail segments of the thumbnail marker `/60x60/`; the family used
to show `pyReplace` cannot create a new occurrence of the marker. -/
def tbFam : List (List Char) :=
  ["/60x60/".toList, "60x60/".toList, "0x60/".toList, "x60/".toList,
   "60/".toList, "0/".toList, "/".toList]

/-- Replacing a size-variant marker (which starts and ends with a slash) by
`/originals/` cannot create a new `/60x60/` occurrence anywhere in the url. -/
theorem hasSub_small_replGo_absent (p : List Char)
    (hp1 : p ≠ [])
    (hplast : ∃ q, p = q ++ ['/'])
    (hrep : ∀ t ∈ tbFam, hasPre t origMarker = true → hasPre t p = true) :
    ∀ fuel s, s.length ≤ fuel → hasSub smallMarker s = false →
      hasSub smallMarker (replGo p origMarker fuel s) = false := by
  intro fuel
  induction fuel with
  | zero =>
    intro s _ h
    simpa [replGo] using h
  | succ fuel ih =>
    intro s hslen h
    cases s with
    | nil => simp [replGo, hasSub, hasPre]
    | cons c s =>
      simp only [hasSub, Bool.or_eq_false_iff] at h
      obtain ⟨hpre0, hsub0⟩ := h
      by_cases hm : hasPre p (c :: s) = true
      · rw [show replGo p origMarker (fuel + 1) (c :: s)
            = origMarker ++ replGo p origMarker fuel ((c :: s).drop p.length) by
          simp [replGo, hm]]
        have hdecomp : c :: s = p ++ (c :: s).drop p.length :=
          eq_append_drop_of_hasPre hm
        have hdsub : hasSub smallMarker ((c :: s).drop p.length) = false := by
          cases hd : hasSub smallMarker ((c :: s).drop p.length) with
          | false => rfl
          | true =>
            have : hasSub smallMarker (c :: s) = true :=
              hasSub_of_suffix (List.drop_suffix _ _) hd
            exact absurd this (by simp [hasSub, hpre0, hsub0])
        have hdlen : ((c :: s).drop p.length).length ≤ fuel := by
          have h1 : 1 ≤ p.length := List.length_pos.mpr hp1
          have h2 : s.length + 1 ≤ fuel + 1 := by simpa using hslen
          simp only [List.length_drop, List.length_cons]
          omega
        have hu : hasSub smallMarker
            (replGo p origMarker fuel ((c :: s).drop p.length)) = false :=
          ih _ hdlen hdsub
        set u := replGo p origMarker fuel ((c :: s).drop p.length) with hu_def
        cases hgoal : hasSub smallMarker (origMarker ++ u) with
        | false => rfl
        | true =>
          exfalso
          rcases hasSub_append_split hgoal with ⟨x₂, hsfx, hpre⟩ | hbad
          · have hx : x₂ ∈ List.tails origMarker := (List.mem_tails _ _).mpr hsfx
            rw [show List.tails origMarker
                = ["/originals/".toList, "originals/".toList, "riginals/".toList,
                   "iginals/".toList, "ginals/".toList, "inals/".toList,
                   "nals/".toList, "als/".toList, "ls/".toList, "s/".toList,
                   "/".toList, []] from by decide] at hx
            simp only [List.mem_cons, List.not_mem_nil, or_false] at hx
            rcases hx with rfl | rfl | rfl | rfl | rfl | rfl | rfl | rfl | rfl
              | rfl | rfl | rfl
            · rw [hasPre_append_long _ (by decide)] at hpre
              exact absurd hpre (by decide)
            · rw [hasPre_append_long _ (by decide)] at hpre
              exact absurd hpre (by decide)
            · rw [hasPre_append_long _ (by decide)] at hpre
              exact absurd hpre (by decide)
            · rw [hasPre_append_long _ (by decide)] at hpre
              exact absurd hpre (by decide)
            · rw [hasPre_append_long _ (by decide)] at hpre
              exact absurd hpre (by decide)
            · obtain ⟨h1, _⟩ := hasPre_split_short (by decide) hpre
              exact absurd h1 (by decide)
            · obtain ⟨h1, _⟩ := hasPre_split_short (by decide) hpre
              exact absurd h1 (by decide)
            · obtain ⟨h1, _⟩ := hasPre_split_short (by decide) hpre
              exact absurd h1 (by decide)
            · obtain ⟨h1, _⟩ := hasPre_split_short (by decide) hpre
              exact absurd h1 (by decide)
            · obtain ⟨h1, _⟩ := hasPre_split_short (by decide) hpre
              exact absurd h1 (by decide)
            · obtain ⟨_, h2⟩ := hasPre_split_short (by decide) hpre
              have h2' : hasPre "60x60/".toList u = true := h2
              have h3 : hasPre "60x60/".toList ((c :: s).drop p.length) = false := by
                cases hd : hasPre "60x60/".toList ((c :: s).drop p.length) with
                | false => rfl
                | true =>
                  obtain ⟨q, hq⟩ := hplast
                  have hdec2 : (c :: s).drop p.length
                      = "60x60/".toList ++ ((c :: s).drop p.length).drop 6 :=
                    eq_append_drop_of_hasPre hd
                  have : c :: s = q ++ (smallMarker
                      ++ ((c :: s).drop p.length).drop 6) := by
                    rw [hdecomp, hdec2, hq]
                    simp [smallMarker]
                  have habs : hasSub smallMarker (c :: s) = true := by
                    rw [this, ← List.append_assoc]
                    exact hasSub_middle q smallMarker _
                  exact absurd habs (by simp [hasSub, hpre0, hsub0])
              have h4 : hasPre "60x60/".toList u = false :=
                hasPre_replGo_absent p tbFam (by decide) (by decide) (by decide)
                  hrep fuel _ hdlen _ (by decide) h3
              exact Bool.noConfusion (h2'.symm.trans h4)
            · exact absurd (hasSub_of_hasPre (by simpa using hpre)) (by simp [hu])
          · exact absurd hbad (by simp [hu])
      · rw [show replGo p origMarker (fuel + 1) (c :: s)
            = c :: replGo p origMarker fuel s by
          simp [replGo, hm]]
        have hs' : hasSub smallMarker (replGo p origMarker fuel s) = false :=
          ih s (by simpa using Nat.le_of_succ_le_succ hslen) hsub0
        have hp' : hasPre smallMarker (c :: replGo p origMarker fuel s) = false := by
          have := hasPre_replGo_absent p tbFam (by decide) (by decide) (by decide)
            hrep (fuel + 1) (c :: s) hslen smallMarker (by decide) hpre0
          rwa [show replGo p origMarker (fuel + 1) (c :: s)
              = c :: replGo p origMarker fuel s by simp [replGo, hm]] at this
        simp [hasSub, hp', hs']

/-- Nonempty tail segments of the `data:` marker. -/
def tdFam : List (List Char) :=
  ["data:".toList, "ata:".toList, "ta:".toList, "a:".toList, ":".toList]

theorem tdFam_rep (p : List Char) :
    ∀ t ∈ tdFam, hasPre t origMarker = true → hasPre t p = true := by
  intro t ht h
  exfalso
  fin_cases ht <;> exact absurd h (by decide)

theorem patterns_ne_nil {p : List Char} (hp : p ∈ patterns) : p ≠ [] := by
  fin_cases hp <;> decide

theorem patterns_end_slash {p : List Char} (hp : p ∈ patterns) :
    ∃ q, p = q ++ ['/'] := by
  fin_cases hp
  · exact ⟨"/236x".toList, by decide⟩
  · exact ⟨"/474x".toList, by decide⟩
  · exact ⟨"/736x".toList, by decide⟩
  · exact ⟨"/1200x".toList, by decide⟩
  · exact ⟨"/550x".toList, by decide⟩
  · exact ⟨"/170x".toList, by decide⟩

theorem patterns_tb_rep {p : List Char} (hp : p ∈ patterns) :
    ∀ t ∈ tbFam, hasPre t origMarker = true → hasPre t p = true := by
  intro t ht h
  fin_cases hp <;> fin_cases ht <;> revert h <;> decide

/-- The `data:` rejection test stays false after canonical normalization. -/
theorem hasPre_data_applyFirst {url : List Char}
    (hd : hasPre dataMarker url = false) :
    hasPre dataMarker (applyFirst url) = false := by
  unfold applyFirst
  cases hfind : patterns.find? (fun p => hasSub p url) with
  | none => exact hd
  | some p =>
    exact hasPre_replGo_absent p tdFam (by decide) (by decide) (by decide)
      (tdFam_rep p) url.length url (le_refl _) dataMarker (by decide) hd

/-- The `/60x60/` rejection test stays false after canonical normalization. -/
theorem hasSub_small_applyFirst {url : List Char}
    (hs : hasSub smallMarker url = false) :
    hasSub smallMarker (applyFirst url) = false := by
  unfold applyFirst
  cases hfind : patterns.find? (fun p => hasSub p url) with
  | none => exact hs
  | some p =>
    have hp : p ∈ patterns := List.mem_of_find?_eq_some hfind
    exact hasSub_small_replGo_absent p (patterns_ne_nil hp)
      (patterns_end_slash hp) (patterns_tb_rep hp) url.length url (le_refl _) hs

theorem canonicalize_some_elim {url c : List Char}
    (h : canonicalize url = some c) :
    hasPre dataMarker url = false ∧ hasSub smallMarker url = false ∧
      c = applyFirst url ∧ hasSub pinimgMarker c = true := by
  unfold canonicalize at h
  split_ifs at h with h1 h2 h3
  · have hc : c = applyFirst url := (Option.some_injective _ h).symm
    refine ⟨by simpa using h1, by simpa using h2, hc, ?_⟩
    rw [hc]
    exact h3

/-- Claim C3 counterexample: canonicalization is not idempotent.  The raw
reference `https://i.pinimg.com/474x/236x/a.jpg` canonicalizes by replacing
the first listed marker `/236x/`, leaving `/474x/` behind; a second
application rewrites the result again, so the two applications disagree. -/
theorem claim_c3_counterexample :
    canonicalize "https://i.pinimg.com/474x/236x/a.jpg".toList
      = some "https://i.pinimg.com/474x/originals/a.jpg".toList ∧
    canonicalize "https://i.pinimg.com/474x/originals/a.jpg".toList
      = some "https://i.pinimg.com/originals/originals/a.jpg".toList ∧
    "https://i.pinimg.com/originals/originals/a.jpg".toList
      ≠ "https://i.pinimg.com/474x/originals/a.jpg".toList := by
  refine ⟨by decide, by decide, by decide⟩

/-- Claim C3 (amended): canonicalization is idempotent on every raw reference
whose canonical form contains no remaining size-variant marker: if
`canonicalize url = some c` and no enumerated marker occurs in `c`, then
`canonicalize c = some c`. -/
theorem claim_c3_amended (url c : List Char)
    (h : canonicalize url = some c)
    (hnm : ∀ p ∈ patterns, hasSub p c = false) :
    canonicalize c = some c := by
  obtain ⟨hd, hs, hc, hpin⟩ := canonicalize_some_elim h
  have hdc : hasPre dataMarker c = false := hc ▸ hasPre_data_applyFirst hd
  have hsc : hasSub smallMarker c = false := hc ▸ hasSub_small_applyFirst hs
  have happ : applyFirst c = c := by
    unfold applyFirst
    rw [List.find?_eq_none.mpr (fun p hp => by simp [hnm p hp])]
  rw [canonicalize, if_neg (by simp [hdc]), if_neg (by simp [hsc]), happ,
    if_pos hpin]

/-- Witness for the amended claim C3, at a concrete canonicalizable url whose
canonical form carries no size-variant marker. -/
theorem claim_c3_witness :
    canonicalize "https://i.pinimg.com/236x/ab.jpg".toList
      = some "https://i.pinimg.com/originals/ab.jpg".toList ∧
    canonicalize "https://i.pinimg.com/originals/ab.jpg".toList
      = some "https://i.pinimg.com/originals/ab.jpg".toList :=
  ⟨by decide,
   claim_c3_amended "https://i.pinimg.com/236x/ab.jpg".toList
     "https://i.pinimg.com/originals/ab.jpg".toList (by decide) (by decide)⟩

/-- Claim C4: the canonicalizer rejects inline data references and references
with the too-small thumbnail marker, and a reference containing none of the
enumerated size-variant markers is never emitted in modified form. -/
theorem claim_c4_reject_and_pass (url : List Char) :
    (hasPre dataMarker url = true → canonicalize url = none) ∧
    (hasSub smallMarker url = true → canonicalize url = none) ∧
    ((∀ p ∈ patterns, hasSub p url = false) →
      ∀ c, canonicalize url = some c → c = url) := by
  refine ⟨?_, ?_, ?_⟩
  · intro h
    simp [canonicalize, h]
  · intro h
    cases hd : hasPre dataMarker url <;> simp [canonicalize, hd, h]
  · intro hnm c h
    have happ : applyFirst url = url := by
      unfold applyFirst
      rw [List.find?_eq_none.mpr (fun p hp => by simp [hnm p hp])]
    obtain ⟨_, _, hc, _⟩ := canonicalize_some_elim h
    rw [hc, happ]

/-- Witness for claim C4: a data url and a thumbnail url are rejected, and a
marker-free url passes through unchanged. -/
theorem claim_c4_witness :
    canonicalize "data:image/png;base64,xyz".toList = none ∧
    canonicalize "https://i.pinimg.com/60x60/t.jpg".toList = none ∧
    "https://i.pinimg.com/full/x.jpg".toList
      = "https://i.pinimg.com/full/x.jpg".toList :=
  ⟨(claim_c4_reject_and_pass _).1 (by decide),
   (claim_c4_reject_and_pass _).2.1 (by decide),
   (claim_c4_reject_and_pass _).2.2 (by decide) _ (by decide)⟩

/-- Characters stripped by `clean_folder_name` in `run.py`
(the character class of `re.sub(r'[\\/*?:"<>|]', "", name)`). -/
def badChars : List Char := ['\\', '/', '*', '?', ':', '"', '<', '>', '|']

/-- Strip forbidden characters, then replace spaces by underscores
(`run.py` lines 22-24). -/
def sanitizeChars (name : List Char) : List Char :=
  (name.filter (fun c => !(decide (c ∈ badChars)))).map
    (fun c => if c = ' ' then '_' else c)

/-- Embedding of `clean_folder_name` (`run.py` lines 19-28): strip the
forbidden characters, replace spaces with underscores, then trim the result
to at most 100 characters. -/
def clean_folder_name (name : List Char) : List Char :=
  if 100 < (sanitizeChars name).length then (sanitizeChars name).take 100
  else sanitizeChars name

/-- Claim C10: the folder-name sanitizer yields a string of length at most
100 with no forbidden character and no space, and is the identity on inputs
that already satisfy those conditions. -/
theorem claim_c10_clean_folder_name (name : List Char) :
    (clean_folder_name name).length ≤ 100 ∧
    (∀ c ∈ clean_folder_name name, c ∉ badChars ∧ c ≠ ' ') ∧
    ((∀ c ∈ name, c ∉ badChars ∧ c ≠ ' ') → name.length ≤ 100 →
      clean_folder_name name = name) := by
  refine ⟨?_, ?_, ?_⟩
  · by_cases h : 100 < (sanitizeChars name).length
    · simp [clean_folder_name, h]
    · simp [clean_folder_name, h]
      omega
  · intro c hc
    have hmem : c ∈ sanitizeChars name := by
      by_cases h : 100 < (sanitizeChars name).length
      · rw [clean_folder_name, if_pos h] at hc
        exact List.take_subset _ _ hc
      · rwa [clean_folder_name, if_neg h] at hc
    simp only [sanitizeChars, List.mem_map, List.mem_filter] at hmem
    obtain ⟨a, ⟨_, ha⟩, rfl⟩ := hmem
    by_cases hsp : a = ' '
    · simp [hsp]
      decide
    · simp only [if_neg hsp]
      refine ⟨by simpa using ha, hsp⟩
  · intro hgood hlen
    have hfilter : name.filter (fun c => !(decide (c ∈ badChars))) = name :=
      List.filter_eq_self.mpr (fun c hc => by simp [(hgood c hc).1])
    have hsan : sanitizeChars name = name := by
      rw [sanitizeChars, hfilter]
      calc name.map (fun c => if c = ' ' then '_' else c)
          = name.map id := List.map_congr_left
            (fun c hc => by simp [(hgood c hc).2])
        _ = name := List.map_id name
    rw [clean_folder_name, hsan, if_neg (by omega)]

/-- Witness for claim C10 at a concrete already-clean name. -/
theorem claim_c10_witness : clean_folder_name "abc".toList = "abc".toList :=
  (claim_c10_clean_folder_name _).2.2 (by decide) (by decide)

/-- Observable effects of the scraper download entry point: creating the
output directory and dispatching one fetch task per selected reference. -/
inductive DLEffect
  | mkdir (dir : List Char)
  | fetchTask (url : List Char) (idx : Nat)
deriving DecidableEq

/-- Task list built by `download_images` in `pinterest_browser_scraper.py`
(line 421): one `(url, index)` pair per reference, indexed by position in the
truncated input list.  The common output folder argument is kept separately. -/
def scraperTasks (image_urls : List (List Char)) (max_images : Nat) :
    List (List Char × Nat) :=
  (image_urls.take max_images).enum.map (fun p => (p.2, p.1))

/-- Embedding of `download_images` (`pinterest_browser_scraper.py` lines
406-439): an empty url list returns 0 immediately; otherwise the output
folder is created, tasks are dispatched, and the successes (per the fetch
oracle) are counted. -/
def download_images_run (oracle : List Char → Bool)
    (image_urls : List (List Char)) (output_folder : List Char)
    (max_images : Nat) : Nat × List DLEffect :=
  if image_urls.isEmpty then (0, [])
  else
    (((scraperTasks image_urls max_images).filter (fun t => oracle t.1)).length,
     DLEffect.mkdir output_folder ::
       (scraperTasks image_urls max_images).map
         (fun t => DLEffect.fetchTask t.1 t.2))

/-- Claim C9: with an empty url list the scraper download entry point
returns success count 0 with no effects (no directory creation, no task
dispatch); with a non-empty list the directory creation is the first effect,
before any fetch task. -/
theorem claim_c9_empty_guard (oracle : List Char → Bool)
    (image_urls : List (List Char)) (folder : List Char) (max_images : Nat) :
    (image_urls = [] →
      download_images_run oracle image_urls folder max_images = (0, [])) ∧
    (image_urls ≠ [] →
      (download_images_run oracle image_urls folder max_images).2.head?
        = some (DLEffect.mkdir folder) ∧
      ∀ e ∈ (download_images_run oracle image_urls folder max_images).2.tail,
        ∃ u i, e = DLEffect.fetchTask u i) := by
  constructor
  · rintro rfl
    simp [download_images_run]
  · intro hne
    have hempty : image_urls.isEmpty = false := by
      simpa using hne
    refine ⟨by simp [download_images_run, hempty], ?_⟩
    intro e he
    simp only [download_images_run, hempty, Bool.false_eq_true, if_false,
      List.tail_cons, List.mem_map] at he
    obtain ⟨t, _, rfl⟩ := he
    exact ⟨t.1, t.2, rfl⟩

/-- Witness for claim C9 at a concrete empty and non-empty input. -/
theorem claim_c9_witness :
    download_images_run (fun _ => true) [] "out".toList 5 = (0, []) ∧
    (download_images_run (fun _ => true) ["https://a".toList] "out".toList 5).2.head?
      = some (DLEffect.mkdir "out".toList) :=
  ⟨(claim_c9_empty_guard _ _ _ _).1 rfl,
   ((claim_c9_empty_guard (fun _ => true) ["https://a".toList] "out".toList 5).2
     (by simp)).1⟩

/-- Python slice `l[a:b]` for `0 ≤ a ≤ b`. -/
def pySlice (a b : Nat) (l : List α) : List α := (l.take b).drop a

/-- Ceiling division `(n + batch_size - 1) // batch_size` computing
`total_batches` in `batch_download_images` (`run.py` line 480), with the
constant `batch_size = 10`. -/
def totalBatches (n : Nat) : Nat := (n + 10 - 1) / 10

/-- The k-th batch `urls[start_idx:end_idx]` with `start_idx = 10 * k` and
`end_idx = min(start_idx + 10, len(urls))` (`run.py` lines 502-504). -/
def batchAt (urls : List α) (k : Nat) : List α :=
  pySlice (10 * k) (min (10 * k + 10) urls.length) urls

/-- The sequence of batches processed by the loop
`for batch_num in range(total_batches)` (`run.py` line 501). -/
def batchList (urls : List α) : List (List α) :=
  (List.range (totalBatches urls.length)).map (batchAt urls)

theorem pySlice_getElem? (a b : Nat) (l : List α) (i : Nat) :
    (pySlice a b l)[i]? = if a + i < b then l[a + i]? else none := by
  unfold pySlice
  rw [List.getElem?_drop]
  by_cases h : a + i < b
  · rw [if_pos h, List.getElem?_take_of_lt h]
  · rw [if_neg h]
    refine List.getElem?_eq_none ?_
    rw [List.length_take]
    omega

theorem batchAt_length (urls : List α) (k : Nat) :
    (batchAt urls k).length = min (10 * k + 10) urls.length - 10 * k := by
  simp only [batchAt, pySlice, List.length_drop, List.length_take]
  omega

theorem batchAt_getElem? (urls : List α) (k i : Nat)
    (h : i < (batchAt urls k).length) :
    (batchAt urls k)[i]? = urls[10 * k + i]? := by
  rw [batchAt_length] at h
  rw [batchAt, pySlice_getElem?, if_pos (by omega)]

/-- Claim C7: the scheduler partitions a non-empty selected list of length n
into exactly ceiling(n/10) batches, in order; every batch has exactly 10
tasks except possibly the last, which has n mod 10 of them (10 when n is a
multiple of 10); and the k-th batch holds the references at positions
10k .. min(10k+10, n)-1 of the selected list. -/
theorem claim_c7_batching (urls : List (List Char)) (_hne : urls ≠ []) :
    (batchList urls).length = (urls.length + 9) / 10 ∧
    (∀ k, (batchList urls)[k]?
      = if k < totalBatches urls.length then some (batchAt urls k) else none) ∧
    (∀ k, k + 1 < totalBatches urls.length → (batchAt urls k).length = 10) ∧
    (∀ k, k + 1 = totalBatches urls.length → (batchAt urls k).length
      = (if urls.length % 10 = 0 then 10 else urls.length % 10)) ∧
    (∀ k i, i < (batchAt urls k).length →
      (batchAt urls k)[i]? = urls[10 * k + i]?) := by
  refine ⟨?_, ?_, ?_, ?_, ?_⟩
  · simp [batchList, totalBatches]
  · intro k
    rw [batchList, List.getElem?_map]
    by_cases h : k < totalBatches urls.length
    · rw [if_pos h, List.getElem?_range h]
      rfl
    · rw [if_neg h, List.getElem?_eq_none (by simpa using Nat.le_of_not_lt h)]
      rfl
  · intro k hk
    rw [batchAt_length]
    unfold totalBatches at hk
    omega
  · intro k hk
    rw [batchAt_length]
    unfold totalBatches at hk
    split_ifs with h <;> omega
  · exact batchAt_getElem? urls

/-- Witness for claim C7 on a concrete list of 13 references: 2 batches, the
first of size 10 and the last of size 3. -/
theorem claim_c7_witness :
    (batchList (List.replicate 13 "u".toList)).length = 2 ∧
    (batchAt (List.replicate 13 "u".toList) 0).length = 10 ∧
    (batchAt (List.replicate 13 "u".toList) 1).length = 3 := by
  have h := claim_c7_batching (List.replicate 13 "u".toList) (by simp)
  refine ⟨h.1.trans (by norm_num), ?_, ?_⟩
  · exact h.2.2.1 0 (by decide)
  · exact (h.2.2.2.1 1 (by decide)).trans (by norm_num)

/-- Python `f'{idx:04d}'`: the decimal digits of `idx`, left-padded with
zeros to at least four characters. -/
def pad4 (n : Nat) : List Char :=
  List.replicate (4 - (Nat.toDigits 10 n).length) '0' ++ Nat.toDigits 10 n

/-- Destination filename `f'image_{idx:04d}.jpg'` used by the async batch
path (`run.py` line 512). -/
def asyncFilename (idx : Nat) : List Char :=
  "image_".toList ++ pad4 idx ++ ".jpg".toList

/-- Raw extension candidate `url.split('.')[-1].split('?')[0]` computed by
`download_image` (`pinterest_browser_scraper.py` line 383). -/
def extCandidate (url : List Char) : List Char :=
  (((url.splitOn '.').getLastD []).splitOn '?').headD []

/-- Extension choice of `download_image` (lines 383-385): the raw candidate
unless it is empty or longer than five characters, in which case `jpg`. -/
def fileExtOf (url : List Char) : List Char :=
  if 5 < (extCandidate url).length ∨ extCandidate url = [] then "jpg".toList
  else extCandidate url

/-- Destination filename `f'image_{index:04d}.{file_ext}'` used by the
thread-pool path (`pinterest_browser_scraper.py` line 387). -/
def scraperFilename (url : List Char) (index : Nat) : List Char :=
  "image_".toList ++ pad4 index ++ ('.' :: fileExtOf url)

/-- The `(url, filename)` pairs created for batch `k` by the task-building
loop of `batch_download_images` (`run.py` lines 509-514): the sequence index
is `start_idx + i`, fixed at dispatch time. -/
def batchTasks (urls : List (List Char)) (k : Nat) :
    List (List Char × List Char) :=
  (batchAt urls k).enum.map (fun p => (p.2, asyncFilename (10 * k + p.1)))

/-- All tasks dispatched over the sequentially processed batches. -/
def dispatchedTasks (urls : List (List Char)) : List (List Char × List Char) :=
  ((List.range (totalBatches urls.length)).map (batchTasks urls)).flatten

theorem enumFrom_map_shift {β : Type _} (g : Nat → α → β) (base : Nat)
    (l : List α) :
    (List.enumFrom base l).map (fun p => g p.1 p.2)
      = l.enum.map (fun p => g (base + p.1) p.2) := by
  apply List.ext_getElem?
  intro i
  simp only [List.getElem?_map, List.getElem?_enumFrom, List.getElem?_enum,
    Option.map_map]
  cases l[i]? <;> rfl

theorem enum_map_take_drop {β : Type _} (g : Nat → α → β) (t : Nat)
    (l : List α) :
    (l.take t).enum.map (fun p => g p.1 p.2)
      ++ (l.drop t).enum.map (fun p => g (t + p.1) p.2)
    = l.enum.map (fun p => g p.1 p.2) := by
  conv_rhs => rw [← List.take_append_drop t l]
  rw [List.enum_append, List.map_append]
  congr 1
  rw [enumFrom_map_shift]
  by_cases h : t ≤ l.length
  · rw [List.length_take, Nat.min_eq_left h]
  · rw [List.drop_eq_nil_of_le (Nat.le_of_not_le h)]
    simp

theorem batchAt_drop_ten (urls : List α) (k : Nat) :
    batchAt urls (k + 1) = batchAt (urls.drop 10) k := by
  apply List.ext_getElem?
  intro i
  rw [batchAt, batchAt, pySlice_getElem?, pySlice_getElem?]
  rw [List.length_drop]
  by_cases h1 : 10 * (k + 1) + i < min (10 * (k + 1) + 10) urls.length
  · rw [if_pos h1, if_pos (by omega), List.getElem?_drop]
    congr 1
    omega
  · rw [if_neg h1, if_neg (by omega)]

/-- The flattened task list over all batches enumerates the selected urls in
order, for any per-index task builder. -/
theorem chunked_flatten {β : Type _} :
    ∀ (m : Nat) (g : Nat → List Char → β) (urls : List (List Char)),
      totalBatches urls.length = m →
      ((List.range m).map
        (fun k => (batchAt urls k).enum.map
          (fun p => g (10 * k + p.1) p.2))).flatten
      = urls.enum.map (fun p => g p.1 p.2) := by
  intro m
  induction m with
  | zero =>
    intro g urls htot
    have hlen : urls.length = 0 := by
      unfold totalBatches at htot
      omega
    rw [List.length_eq_zero] at hlen
    subst hlen
    simp
  | succ m ih =>
    intro g urls htot
    have hn : 1 ≤ urls.length := by
      by_contra hc
      unfold totalBatches at htot
      omega
    rw [List.range_succ_eq_map, List.map_cons, List.flatten_cons, List.map_map]
    have hb0 : batchAt urls 0 = urls.take 10 := by
      rw [batchAt, pySlice, List.drop_zero]
      rw [List.take_eq_take]
      omega
    have htot' : totalBatches (urls.drop 10).length = m := by
      rw [List.length_drop]
      unfold totalBatches at htot ⊢
      omega
    have hstep : ∀ k ∈ List.range m,
        ((fun k => (batchAt urls k).enum.map
          (fun p => g (10 * k + p.1) p.2)) ∘ Nat.succ) k
        = (batchAt (urls.drop 10) k).enum.map
            (fun p => (fun j c => g (10 + j) c) (10 * k + p.1) p.2) := by
      intro k _
      simp only [Function.comp_apply]
      rw [batchAt_drop_ten]
      refine List.map_congr_left (fun p _ => ?_)
      show g (10 * (k + 1) + p.1) p.2 = g (10 + (10 * k + p.1)) p.2
      congr 1
      ring
    rw [List.map_congr_left hstep, ih (fun j c => g (10 + j) c) _ htot']
    rw [hb0]
    have hzero : (urls.take 10).enum.map (fun p => g (10 * 0 + p.1) p.2)
        = (urls.take 10).enum.map (fun p => g p.1 p.2) :=
      List.map_congr_left (fun p _ => by norm_num)
    rw [hzero]
    exact enum_map_take_drop g 10 urls

/-- The dispatched task stream is the in-order enumeration of the selected
urls, each paired with the filename fixed from its dispatch position. -/
theorem dispatchedTasks_eq (urls : List (List Char)) :
    dispatchedTasks urls = urls.enum.map (fun p => (p.2, asyncFilename p.1)) :=
  chunked_flatten (totalBatches urls.length)
    (fun j c => (c, asyncFilename j)) urls rfl

/-- Claim C8 counterexample: in the async batch path the destination
filename is always `image_XXXX.jpg`, even for a reference that clearly
carries the extension `png`, contradicting the claimed extension rule. -/
theorem claim_c8_counterexample :
    dispatchedTasks ["https://i.pinimg.com/originals/pic.png".toList]
      = [("https://i.pinimg.com/originals/pic.png".toList,
          "image_0000.jpg".toList)] ∧
    extCandidate "https://i.pinimg.com/originals/pic.png".toList
      = "png".toList ∧
    "image_0000.jpg".toList ≠ "image_0000.png".toList := by
  refine ⟨by decide, by decide, by decide⟩

/-- Claim C8 (amended): the sequence index of every dispatched task is fixed
at dispatch time as the task's position in the original selected order, in
both download paths; the thread-pool path derives the extension from the
reference (falling back to `jpg` when the candidate is empty or longer than
five characters) while the async batch path always uses `jpg`. -/
theorem claim_c8_amended (urls : List (List Char)) (j : Nat) :
    (dispatchedTasks urls)[j]?
      = urls[j]?.map (fun u => (u, asyncFilename j)) ∧
    (∀ maxImages, (scraperTasks urls maxImages)[j]?
      = (urls.take maxImages)[j]?.map (fun u => (u, j))) ∧
    (∀ u : List Char, (extCandidate u).length ≤ 5 → extCandidate u ≠ [] →
      scraperFilename u j
        = "image_".toList ++ pad4 j ++ ('.' :: extCandidate u)) ∧
    (∀ u : List Char, 5 < (extCandidate u).length ∨ extCandidate u = [] →
      scraperFilename u j
        = "image_".toList ++ pad4 j ++ ('.' :: "jpg".toList)) := by
  refine ⟨?_, ?_, ?_, ?_⟩
  · rw [dispatchedTasks_eq, List.getElem?_map, List.getElem?_enum]
    cases urls[j]? <;> rfl
  · intro maxImages
    rw [scraperTasks, List.getElem?_map, List.getElem?_enum]
    cases (urls.take maxImages)[j]? <;> rfl
  · intro u h1 h2
    rw [scraperFilename, fileExtOf, if_neg (not_or.mpr ⟨by omega, h2⟩)]
  · intro u h
    rw [scraperFilename, fileExtOf, if_pos h]

/-- Witness for the amended claim C8 at a concrete dispatch list and
concrete references with a short and an overlong extension candidate. -/
theorem claim_c8_witness :
    (dispatchedTasks ["https://a.jpg".toList])[0]?
      = some ("https://a.jpg".toList, "image_0000.jpg".toList) ∧
    scraperFilename "https://a.png".toList 3
      = "image_".toList ++ pad4 3 ++ ('.' :: "png".toList) ∧
    scraperFilename "https://a.verylong".toList 3
      = "image_".toList ++ pad4 3 ++ ('.' :: "jpg".toList) := by
  refine ⟨?_, ?_, ?_⟩
  · rw [(claim_c8_amended ["https://a.jpg".toList] 0).1]
    decide
  · exact ((claim_c8_amended [] 3).2.2.1 "https://a.png".toList
      (by decide) (by decide)).trans (by decide)
  · exact (claim_c8_amended [] 3).2.2.2 "https://a.verylong".toList
      (by decide)

/-- Outcome of one fetch in the embedded network oracle: an HTTP response
with a status code, or a transport error / timeout (a raised exception). -/
inductive FetchResult
  | status (code : Nat)
  | failure
deriving DecidableEq

/-- Value produced by `download_single_image_async` when called without
shared state (`run.py` lines 369-404): `True` on HTTP 200, `False` on any
other status, and the caught exception object on a transport error. -/
inductive SingleResult
  | ok
  | notOk
  | exc
deriving DecidableEq

/-- Embedding of `download_single_image_async` over the fetch oracle. -/
def downloadSingle (oracle : List Char → FetchResult) (url : List Char) :
    SingleResult :=
  match oracle url with
  | .status c => if c = 200 then .ok else .notOk
  | .failure => .exc

/-- Result-processing loop of `batch_download_images` (`run.py` lines
520-525): exceptions are appended to `failed_downloads`, `True` results
increment `download_counter`, and `False` results (non-200 statuses) are
skipped entirely. -/
def processResults (counter : Nat) (failed : List (List Char))
    (results : List (List Char × SingleResult)) : Nat × List (List Char) :=
  results.foldl
    (fun acc r =>
      match r.2 with
      | .exc => (acc.1, acc.2 ++ [r.1])
      | .ok => (acc.1 + 1, acc.2)
      | .notOk => acc)
    (counter, failed)

/-- Embedding of `batch_download_images` (`run.py` lines 465-532): truncate
to `max_images`, process the batches sequentially, gather per-task results in
task order, and return the final success counter and failed-download list. -/
def batchDownloadImages (oracle : List Char → FetchResult)
    (urls : List (List Char)) (maxImages : Nat) : Nat × List (List Char) :=
  (List.range (totalBatches (urls.take maxImages).length)).foldl
    (fun acc k =>
      processResults acc.1 acc.2
        ((batchAt (urls.take maxImages) k).map
          (fun u => (u, downloadSingle oracle u))))
    (0, [])

/-- Claim C1 evaluated at its failing input: in a batch of 10 tasks where
exactly 3 fetches return HTTP 404 and 7 return HTTP 200, the scheduler
records 7 successes but a failure count of 0 (the `False` results of non-200
statuses are never added to `failed_downloads`), not the claimed 3; with 20
tasks over two batches the later batch is still processed, confirming that
failures do not abort the session. -/
theorem claim_c1_failing_run :
    batchDownloadImages
      (fun u => if u = ['2'] ∨ u = ['5'] ∨ u = ['8']
        then FetchResult.status 404 else FetchResult.status 200)
      ((List.range 10).map (fun i => Nat.toDigits 10 i)) 10
      = (7, []) ∧
    batchDownloadImages
      (fun u => if u = ['2'] ∨ u = ['5'] ∨ u = ['8']
        then FetchResult.status 404 else FetchResult.status 200)
      ((List.range 20).map (fun i => Nat.toDigits 10 i)) 20
      = (17, []) := by
  refine ⟨by decide, by decide⟩

/-- The content source as seen by the discovery loop: what the extraction
hook returns and what `document.body.scrollHeight` reports, both as
functions of the number of scroll actions performed so far. -/
structure PageModel where
  extract : Nat → List (List Char)
  height : Nat → Nat

/-- State of the discovery loop of `extract_image_urls_method2`: the scroll
clock, the set of collected urls in insertion order, and `last_height`. -/
structure DState where
  scount : Nat
  inserted : List (List Char)
  lastHeight : Nat
deriving DecidableEq

/-- Why the scroll loop of `extract_image_urls_method2` stopped. -/
inductive DStatus
  | targetReached
  | converged
  | budgetExhausted
deriving DecidableEq

/-- Insertion of freshly extracted urls into the collected set, keeping
first-insertion order and skipping duplicates (`if url not in all_image_urls:
all_image_urls.add(url)`, lines 196-199). -/
def insertNew (acc : List (List Char)) (urls : List (List Char)) :
    List (List Char) :=
  urls.foldl (fun acc u => if u ∈ acc then acc else acc ++ [u]) acc

/-- Normal settle delay between scroll steps, in milliseconds
(`time.sleep(0.5)`, line 189). -/
def normalSettleMs : Nat := 500

/-- Increased settle delay before each confirmation re-probe, in
milliseconds (`time.sleep(4)`, line 220). -/
def confirmSettleMs : Nat := 4000

/-- The confirmation re-probe loop (`for _ in range(max_bottom_detection_
attempts)`, lines 216-230): scroll, wait, read the height; a strictly larger
reading breaks out (content still loading), otherwise the bottom-detection
counter increments. -/
def probeLoop (model : PageModel) : Nat → Nat → Nat → Nat → Nat × Nat × Nat
  | 0, sc, h, cnt => (sc, h, cnt)
  | attempts + 1, sc, h, cnt =>
    if h < model.height (sc + 1) then (sc + 1, model.height (sc + 1), cnt)
    else probeLoop model attempts (sc + 1) h (cnt + 1)

/-- The scroll loop of `extract_image_urls_method2` (lines 184-237): scroll,
extract and insert, stop on reaching `max_images`, otherwise compare the
height to `last_height` and run the confirmation re-probes on a stall;
three consecutive non-growing re-probes mean convergence. -/
def discoveryLoop (model : PageModel) (maxImages : Nat) :
    Nat → DState → DStatus × DState
  | 0, st => (.budgetExhausted, st)
  | fuel + 1, st =>
    let sc := st.scount + 1
    let ins := insertNew st.inserted (model.extract sc)
    if maxImages ≤ ins.length then
      (.targetReached, ⟨sc, ins, st.lastHeight⟩)
    else if model.height sc = st.lastHeight then
      if 3 ≤ (probeLoop model 3 sc (model.height sc) 0).2.2 then
        (.converged, ⟨(probeLoop model 3 sc (model.height sc) 0).1, ins,
          (probeLoop model 3 sc (model.height sc) 0).2.1⟩)
      else
        discoveryLoop model maxImages fuel
          ⟨(probeLoop model 3 sc (model.height sc) 0).1, ins,
           (probeLoop model 3 sc (model.height sc) 0).2.1⟩
    else discoveryLoop model maxImages fuel ⟨sc, ins, model.height sc⟩

/-- One full run of the scroll loop, starting from the initial height
reading (line 171) with an empty url set. -/
def method2Run (model : PageModel) (maxImages numScrolls : Nat) :
    DStatus × DState :=
  discoveryLoop model maxImages numScrolls ⟨0, [], model.height 0⟩

/-- Url set returned by `extract_image_urls_method2`, including the final
extraction after the loop ends (lines 240-242); the Python function then
returns `list(all_image_urls)`, an unordered listing of this set. -/
def method2Urls (model : PageModel) (maxImages numScrolls : Nat) :
    List (List Char) :=
  insertNew (method2Run model maxImages numScrolls).2.inserted
    (model.extract (method2Run model maxImages numScrolls).2.scount)

theorem insertNew_length_le (l : List (List Char)) :
    ∀ acc : List (List Char), acc.length ≤ (insertNew acc l).length := by
  induction l with
  | nil => intro acc; simp [insertNew]
  | cons u l ih =>
    intro acc
    rw [insertNew, List.foldl_cons]
    by_cases h : u ∈ acc
    · rw [if_pos h]
      exact ih acc
    · rw [if_neg h]
      calc acc.length ≤ (acc ++ [u]).length := by simp
        _ ≤ _ := ih (acc ++ [u])

theorem discoveryLoop_target_size (model : PageModel) (maxImages : Nat) :
    ∀ (fuel : Nat) (st : DState) (stat : DStatus) (r : DState),
      discoveryLoop model maxImages fuel st = (stat, r) →
      stat = DStatus.targetReached → maxImages ≤ r.inserted.length := by
  intro fuel
  induction fuel with
  | zero =>
    intro st stat r h hstat
    rw [discoveryLoop] at h
    obtain ⟨h1, _⟩ := Prod.mk.injEq .. ▸ h
    rw [← h1] at hstat
    exact absurd hstat (by simp)
  | succ fuel ih =>
    intro st stat r h hstat
    rw [discoveryLoop] at h
    by_cases htarget :
        maxImages ≤ (insertNew st.inserted (model.extract (st.scount + 1))).length
    · rw [if_pos htarget] at h
      obtain ⟨_, h2⟩ := Prod.mk.injEq .. ▸ h
      rw [← h2]
      exact htarget
    · rw [if_neg htarget] at h
      by_cases hstall : model.height (st.scount + 1) = st.lastHeight
      · rw [if_pos hstall] at h
        by_cases hcnt : 3 ≤ (probeLoop model 3 (st.scount + 1)
            (model.height (st.scount + 1)) 0).2.2
        · rw [if_pos hcnt] at h
          obtain ⟨h1, _⟩ := Prod.mk.injEq .. ▸ h
          rw [← h1] at hstat
          exact absurd hstat (by simp)
        · rw [if_neg hcnt] at h
          exact ih _ _ _ h hstat
      · rw [if_neg hstall] at h
        exact ih _ _ _ h hstat

/-- Claim C5: the scroll loop stops in `targetReached` as soon as the
collected set reaches the requested count — the iteration that reaches the
target performs only its own scroll (no confirmation probes, no further
iterations) — and every `targetReached` run returns at least `maxImages`
distinct references. -/
theorem claim_c5_target_reached (model : PageModel)
    (maxImages fuel numScrolls : Nat) (st : DState) (stat : DStatus)
    (r : DState)
    (hreach : maxImages ≤
      (insertNew st.inserted (model.extract (st.scount + 1))).length)
    (hrun : method2Run model maxImages numScrolls = (stat, r))
    (hstat : stat = DStatus.targetReached) :
    discoveryLoop model maxImages (fuel + 1) st
      = (.targetReached,
         ⟨st.scount + 1, insertNew st.inserted (model.extract (st.scount + 1)),
          st.lastHeight⟩) ∧
    maxImages ≤ (method2Urls model maxImages numScrolls).length := by
  constructor
  · rw [discoveryLoop, if_pos hreach]
  · have h1 : maxImages ≤ r.inserted.length :=
      discoveryLoop_target_size model maxImages numScrolls _ _ _ hrun hstat
    have h2 : (method2Run model maxImages numScrolls).2 = r := by rw [hrun]
    rw [method2Urls, h2]
    exact le_trans h1 (insertNew_length_le _ _)

/-- Witness for claim C5: a source that yields two references on the first
step with a requested count of two stops at once in `targetReached`. -/
theorem claim_c5_witness :
    discoveryLoop ⟨fun _ => [['a'], ['b']], fun n => n⟩ 2 4 ⟨0, [], 0⟩
      = (.targetReached, ⟨1, [['a'], ['b']], 0⟩) ∧
    2 ≤ (method2Urls ⟨fun _ => [['a'], ['b']], fun n => n⟩ 2 5).length := by
  have h := claim_c5_target_reached ⟨fun _ => [['a'], ['b']], fun n => n⟩
    2 3 5 ⟨0, [], 0⟩ DStatus.targetReached ⟨1, [['a'], ['b']], 0⟩
    (by decide) (by decide) rfl
  exact ⟨h.1.trans (by decide), h.2⟩

theorem probeLoop_succ (model : PageModel) (attempts sc h cnt : Nat) :
    probeLoop model (attempts + 1) sc h cnt
      = if h < model.height (sc + 1) then (sc + 1, model.height (sc + 1), cnt)
        else probeLoop model attempts (sc + 1) h (cnt + 1) := by
  rw [probeLoop]

theorem probeLoop_eval (model : PageModel) (sc h cnt : Nat) :
    probeLoop model 3 sc h cnt
      = if h < model.height (sc + 1) then (sc + 1, model.height (sc + 1), cnt)
        else if h < model.height (sc + 2) then
          (sc + 2, model.height (sc + 2), cnt + 1)
        else if h < model.height (sc + 3) then
          (sc + 3, model.height (sc + 3), cnt + 2)
        else (sc + 3, h, cnt + 3) := by
  have e1 : probeLoop model 3 sc h cnt
      = if h < model.height (sc + 1) then (sc + 1, model.height (sc + 1), cnt)
        else probeLoop model 2 (sc + 1) h (cnt + 1) :=
    probeLoop_succ model 2 sc h cnt
  have e2 : probeLoop model 2 (sc + 1) h (cnt + 1)
      = if h < model.height (sc + 1 + 1) then
          (sc + 1 + 1, model.height (sc + 1 + 1), cnt + 1)
        else probeLoop model 1 (sc + 1 + 1) h (cnt + 1 + 1) :=
    probeLoop_succ model 1 (sc + 1) h (cnt + 1)
  have e3 : probeLoop model 1 (sc + 1 + 1) h (cnt + 1 + 1)
      = if h < model.height (sc + 1 + 1 + 1) then
          (sc + 1 + 1 + 1, model.height (sc + 1 + 1 + 1), cnt + 1 + 1)
        else probeLoop model 0 (sc + 1 + 1 + 1) h (cnt + 1 + 1 + 1) :=
    probeLoop_succ model 0 (sc + 1 + 1) h (cnt + 1 + 1)
  have e4 : probeLoop model 0 (sc + 1 + 1 + 1) h (cnt + 1 + 1 + 1)
      = (sc + 1 + 1 + 1, h, cnt + 1 + 1 + 1) := rfl
  rw [e1, e2, e3, e4]

theorem probeLoop_count3 (model : PageModel) (sc h : Nat)
    {sc2 h2 cnt : Nat}
    (hpl : probeLoop model 3 sc h 0 = (sc2, h2, cnt)) (hcnt : 3 ≤ cnt) :
    sc2 = sc + 3 ∧ h2 = h ∧ model.height (sc + 1) ≤ h ∧
      model.height (sc + 2) ≤ h ∧ model.height (sc + 3) ≤ h := by
  rw [probeLoop_eval] at hpl
  split_ifs at hpl with h1 h2' h3
  · simp only [Prod.mk.injEq] at hpl
    omega
  · simp only [Prod.mk.injEq] at hpl
    omega
  · simp only [Prod.mk.injEq] at hpl
    omega
  · simp only [Prod.mk.injEq] at hpl
    obtain ⟨hA, hB, _⟩ := hpl
    exact ⟨hA.symm, hB.symm, Nat.le_of_not_lt h1, Nat.le_of_not_lt h2',
      Nat.le_of_not_lt h3⟩

theorem discoveryLoop_converged_probes (model : PageModel) (maxImages : Nat) :
    ∀ (fuel : Nat) (st : DState) (stat : DStatus) (r : DState),
      discoveryLoop model maxImages fuel st = (stat, r) →
      stat = DStatus.converged →
      ∃ sc, r.scount = sc + 3 ∧
        model.height (sc + 1) ≤ model.height sc ∧
        model.height (sc + 2) ≤ model.height sc ∧
        model.height (sc + 3) ≤ model.height sc := by
  intro fuel
  induction fuel with
  | zero =>
    intro st stat r h hstat
    rw [discoveryLoop] at h
    obtain ⟨h1, _⟩ := Prod.mk.injEq .. ▸ h
    rw [← h1] at hstat
    exact absurd hstat (by simp)
  | succ fuel ih =>
    intro st stat r h hstat
    rw [discoveryLoop] at h
    by_cases htarget :
        maxImages ≤ (insertNew st.inserted (model.extract (st.scount + 1))).length
    · rw [if_pos htarget] at h
      obtain ⟨h1, _⟩ := Prod.mk.injEq .. ▸ h
      rw [← h1] at hstat
      exact absurd hstat (by simp)
    · rw [if_neg htarget] at h
      by_cases hstall : model.height (st.scount + 1) = st.lastHeight
      · rw [if_pos hstall] at h
        by_cases hcnt : 3 ≤ (probeLoop model 3 (st.scount + 1)
            (model.height (st.scount + 1)) 0).2.2
        · rw [if_pos hcnt] at h
          obtain ⟨hp1, hp2, hp3, hp4, hp5⟩ :=
            probeLoop_count3 model (st.scount + 1)
              (model.height (st.scount + 1)) rfl hcnt
          obtain ⟨_, h2⟩ := Prod.mk.injEq .. ▸ h
          refine ⟨st.scount + 1, ?_, hp3, hp4, hp5⟩
          rw [← h2]
          exact hp1
        · rw [if_neg hcnt] at h
          exact ih _ _ _ h hstat
      · rw [if_neg hstall] at h
        exact ih _ _ _ h hstat

/-- Claim C6: convergence of the scroll loop requires exactly K = 3
confirmation re-probes, none of which may read a grown extent — never a
single unchanged reading; once the extent has stopped changing, a stalled
iteration terminates in `converged` after exactly the 3 extra probe steps;
a grown extent during a re-probe resumes normal stepping with the updated
height; and the confirmation re-probes use an increased settle delay. -/
theorem claim_c6_convergence (model : PageModel) (maxImages : Nat) :
    (∀ sc h sc2 h2 cnt, probeLoop model 3 sc h 0 = (sc2, h2, cnt) →
      3 ≤ cnt → sc2 = sc + 3 ∧ h2 = h ∧ model.height (sc + 1) ≤ h ∧
        model.height (sc + 2) ≤ h ∧ model.height (sc + 3) ≤ h) ∧
    (∀ fuel st stat r, discoveryLoop model maxImages fuel st = (stat, r) →
      stat = DStatus.converged →
      ∃ sc, r.scount = sc + 3 ∧
        model.height (sc + 1) ≤ model.height sc ∧
        model.height (sc + 2) ≤ model.height sc ∧
        model.height (sc + 3) ≤ model.height sc) ∧
    (∀ fuel st, (∀ k, model.height k = st.lastHeight) →
      (insertNew st.inserted (model.extract (st.scount + 1))).length
        < maxImages →
      discoveryLoop model maxImages (fuel + 1) st
        = (.converged, ⟨st.scount + 4,
            insertNew st.inserted (model.extract (st.scount + 1)),
            st.lastHeight⟩)) ∧
    (∀ fuel st, model.height (st.scount + 1) = st.lastHeight →
      st.lastHeight < model.height (st.scount + 2) →
      (insertNew st.inserted (model.extract (st.scount + 1))).length
        < maxImages →
      discoveryLoop model maxImages (fuel + 1) st
        = discoveryLoop model maxImages fuel
            ⟨st.scount + 2,
             insertNew st.inserted (model.extract (st.scount + 1)),
             model.height (st.scount + 2)⟩) ∧
    normalSettleMs < confirmSettleMs := by
  refine ⟨?_, discoveryLoop_converged_probes model maxImages, ?_, ?_, by decide⟩
  · intro sc h sc2 h2 cnt hpl hcnt
    exact probeLoop_count3 model sc h hpl hcnt
  · intro fuel st hconst hsize
    have hp : probeLoop model 3 (st.scount + 1)
        (model.height (st.scount + 1)) 0
        = (st.scount + 4, st.lastHeight, 3) := by
      rw [probeLoop_eval]
      rw [if_neg (show ¬ model.height (st.scount + 1)
          < model.height (st.scount + 1 + 1) from by
        rw [hconst, hconst]; omega)]
      rw [if_neg (show ¬ model.height (st.scount + 1)
          < model.height (st.scount + 1 + 2) from by
        rw [hconst, hconst]; omega)]
      rw [if_neg (show ¬ model.height (st.scount + 1)
          < model.height (st.scount + 1 + 3) from by
        rw [hconst, hconst]; omega)]
      rw [hconst (st.scount + 1)]
    rw [discoveryLoop, if_neg (Nat.not_le.mpr hsize),
      if_pos (hconst (st.scount + 1)), hp]
    rfl
  · intro fuel st hstall hgrow hsize
    have hp : probeLoop model 3 (st.scount + 1)
        (model.height (st.scount + 1)) 0
        = (st.scount + 2, model.height (st.scount + 2), 0) := by
      rw [probeLoop_eval]
      rw [if_pos (show model.height (st.scount + 1)
          < model.height (st.scount + 1 + 1) from by
        rw [hstall]; exact hgrow)]
    rw [discoveryLoop, if_neg (Nat.not_le.mpr hsize), if_pos hstall, hp]
    rfl

/-- Witness for claim C6: a constant-extent source converges after exactly
three confirmation probes, and a source that grows during the first probe
resumes stepping. -/
theorem claim_c6_witness :
    discoveryLoop ⟨fun _ => [], fun _ => 7⟩ 5 3 ⟨0, [], 7⟩
      = (.converged, ⟨4, [], 7⟩) ∧
    discoveryLoop ⟨fun _ => [], fun n => n⟩ 5 1 ⟨0, [], 1⟩
      = discoveryLoop ⟨fun _ => [], fun n => n⟩ 5 0 ⟨2, [], 2⟩ := by
  constructor
  · exact ((claim_c6_convergence ⟨fun _ => [], fun _ => 7⟩ 5).2.2.1 2
      ⟨0, [], 7⟩ (fun _ => rfl) (by decide)).trans (by decide)
  · exact ((claim_c6_convergence ⟨fun _ => [], fun n => n⟩ 5).2.2.2.1 0
      ⟨0, [], 1⟩ (by decide) (by decide) (by decide)).trans (by decide)

/-- Origin-normalization applied by `scroll_and_extract_urls` (`run.py`
lines 236-239): when `/originals/` is absent, replace the three listed
size markers. -/
def postCanon (url : List Char) : List Char :=
  if hasSub origMarker url then url
  else
    pyReplace (pyReplace (pyReplace url "/236x/".toList origMarker)
      "/474x/".toList origMarker) "/736x/".toList origMarker

/-- One step of the url-processing loop of `scroll_and_extract_urls`
(`run.py` lines 230-245): skip `/60x60/` thumbnails, normalize, and enqueue
only new `i.pinimg.com` references (the queue doubles as `seen_urls`). -/
def postStep (queueAcc : List (List Char)) (url : List Char) :
    List (List Char) :=
  if hasSub smallMarker url then queueAcc
  else if postCanon url ∉ queueAcc ∧ hasSub pinimgMarker (postCanon url) then
    queueAcc ++ [postCanon url]
  else queueAcc

/-- The url queue built from the listing that `extract_image_urls_method2`
returned (an arbitrary listing of its url set). -/
def urlQueue (listing : List (List Char)) : List (List Char) :=
  listing.foldl postStep []

/-- The urls drained from the queue by `download_images` (`run.py` lines
444-446): at most `max_images`, in queue order. -/
def dispatchedUrls (listing : List (List Char)) (maxImages : Nat) :
    List (List Char) :=
  (urlQueue listing).take maxImages

theorem postFold_spec (l : List (List Char)) :
    ∀ acc : List (List Char),
      (∀ x ∈ l.foldl postStep acc, x ∈ acc ∨ ∃ y ∈ l, x = postCanon y) ∧
      (acc.Nodup → (l.foldl postStep acc).Nodup) := by
  induction l with
  | nil =>
    intro acc
    exact ⟨fun x hx => Or.inl hx, fun h => h⟩
  | cons u l ih =>
    intro acc
    rw [List.foldl_cons]
    constructor
    · intro x hx
      rcases (ih (postStep acc u)).1 x hx with hmem | ⟨y, hy, hxy⟩
      · unfold postStep at hmem
        split_ifs at hmem with h1 h2
        · exact Or.inl hmem
        · rcases List.mem_append.mp hmem with h | h
          · exact Or.inl h
          · exact Or.inr ⟨u, by simp, by simpa using h⟩
        · exact Or.inl hmem
      · exact Or.inr ⟨y, by simp [hy], hxy⟩
    · intro hnd
      apply (ih (postStep acc u)).2
      unfold postStep
      split_ifs with h1 h2
      · exact hnd
      · simp [List.nodup_append, hnd, h2.1]
      · exact hnd

/-- A concrete content source for claim C2: the first extraction reveals the
references `a` then `b`, in that insertion order. -/
def c2Model : PageModel :=
  ⟨fun n => if n = 0 then []
    else ["https://i.pinimg.com/originals/a.jpg".toList,
          "https://i.pinimg.com/originals/b.jpg".toList],
   fun n => n⟩

/-- Claim C2 counterexample: the url set of the discovery phase is an
unordered Python `set`, so the listing handed to the downloader is only some
permutation of the insertion order; for the listing that reverses the two
inserted references, the first dispatched reference differs from the first
inserted one. -/
theorem claim_c2_counterexample :
    List.Perm
      ["https://i.pinimg.com/originals/b.jpg".toList,
       "https://i.pinimg.com/originals/a.jpg".toList]
      (method2Urls c2Model 2 5) ∧
    (dispatchedUrls
      ["https://i.pinimg.com/originals/b.jpg".toList,
       "https://i.pinimg.com/originals/a.jpg".toList] 2)[0]?
      ≠ (method2Urls c2Model 2 5)[0]? := by
  refine ⟨by decide, by decide⟩

/-- Claim C2 (amended): the discovery set is handed off as an arbitrary
listing (a permutation of the insertion-ordered set — the container is
unordered, so no insertion-order guarantee holds); the scheduler dispatches
at most `maxImages` references, each the origin-normalization of a
discovered reference, without duplicates. -/
theorem claim_c2_amended (model : PageModel) (maxImages numScrolls : Nat)
    (listing : List (List Char))
    (hperm : listing.Perm (method2Urls model maxImages numScrolls)) :
    (dispatchedUrls listing maxImages).length ≤ maxImages ∧
    (∀ x ∈ dispatchedUrls listing maxImages,
      ∃ y ∈ method2Urls model maxImages numScrolls, x = postCanon y) ∧
    (dispatchedUrls listing maxImages).Nodup := by
  refine ⟨?_, ?_, ?_⟩
  · simp only [dispatchedUrls]
    exact List.length_take_le maxImages (urlQueue listing)
  · intro x hx
    have hx' : x ∈ urlQueue listing :=
      List.take_subset _ _ (by simpa [dispatchedUrls] using hx)
    rcases (postFold_spec listing []).1 x hx' with h | ⟨y, hy, hxy⟩
    · simp at h
    · exact ⟨y, hperm.subset hy, hxy⟩
  · exact List.Nodup.sublist (List.take_sublist _ _)
      ((postFold_spec listing []).2 List.nodup_nil)

/-- Witness for the amended claim C2 at the concrete reversed listing. -/
theorem claim_c2_witness :
    (dispatchedUrls
      ["https://i.pinimg.com/originals/b.jpg".toList,
       "https://i.pinimg.com/originals/a.jpg".toList] 2).length ≤ 2 ∧
    (dispatchedUrls
      ["https://i.pinimg.com/originals/b.jpg".toList,
       "https://i.pinimg.com/originals/a.jpg".toList] 2).Nodup := by
  have h := claim_c2_amended c2Model 2 5
    ["https://i.pinimg.com/originals/b.jpg".toList,
     "https://i.pinimg.com/originals/a.jpg".toList] (by decide)
  exact ⟨h.1, h.2.2⟩

end PinScrape
